import Mathlib

/-!
# Verification of the Richmond Realtor Finder lead pipeline

A shallow embedding of `src/richmond_realtor_finder.py`: the two regular
expression pattern matchers (`EMAIL_PATTERN`, `PHONE_PATTERN`) with a
Python-style greedy backtracking `findall`, the process-wide mutable state
(`uploaded_emails`, `uploaded_count`, `log_lines`, `current_status`), and the
pipeline functions `log`, `set_status`, `query_google_places`, `scrape_page`,
`add_to_brevo` and `run_scraper`.  External HTTP collaborators (the Google
Places search, the page fetch, and the Brevo contact POST) are modelled as
oracles passed in explicitly; each call of the embedded pipeline additionally
returns the list of observable events (search-collaborator invocations and
upload POSTs) so that trace properties can be stated.
-/

namespace RRF

/-! ## Process-wide state (module level globals of the script) -/

/-- The module-level mutable globals: `uploaded_emails` (a Python `set`,
modelled as a list of distinct entries, newest first), `uploaded_count`,
`log_lines` and `current_status`. -/
structure AppState where
  uploaded_emails : List String
  uploaded_count : Nat
  log_lines : List String
  current_status : String
deriving Repr, DecidableEq

/-- State at interpreter start: empty dedup set, zero counter, empty log,
status `"Idle"`. -/
def initialState : AppState :=
  { uploaded_emails := [], uploaded_count := 0, log_lines := [], current_status := "Idle" }

/-- `BREVO_LIST_ID = 4`, the fixed Brevo list id. -/
def BREVO_LIST_ID : Nat := 4

/-- `def log(msg)`: append `msg` to `log_lines`; if the length then exceeds
200, drop the oldest line (`log_lines.pop(0)`).  The `print` call has no
modelled effect. -/
def log (st : AppState) (msg : String) : AppState :=
  { st with log_lines :=
      if 200 < (st.log_lines ++ [msg]).length then (st.log_lines ++ [msg]).tail
      else st.log_lines ++ [msg] }

/-- `def set_status(s)`: store the status string and log a pin line. -/
def set_status (st : AppState) (s : String) : AppState :=
  log { st with current_status := s } ("📍 " ++ s)

/-- The fixed query list `SEARCH_QUERIES`. -/
def SEARCH_QUERIES : List String :=
  ["real estate agency in Richmond VA",
   "realtor office Richmond Virginia",
   "real estate broker Henrico VA",
   "property management company Richmond VA",
   "real estate firm Chesterfield VA",
   "realty company Goochland VA"]

/-! ## Regular expressions

A small regex AST covering exactly the constructs used by the two source
patterns: single character classes, optional character classes (`X?`), greedy
one-or-more (`X+`), exact repetition (`X{n}`) and greedy at-least-`n`
(`X{n,}`), and concatenation.  `seqMatches` lists the possible remainders of
an anchored match attempt in the priority order of Python's backtracking
engine (greedy quantifiers try the longest take first), so the head of the
list corresponds to the match `re` actually produces. -/

inductive Regex where
  | one (p : Char → Bool)
  | opt (p : Char → Bool)
  | plus (p : Char → Bool)
  | rep (n : Nat) (p : Char → Bool)
  | repGe (n : Nat) (p : Char → Bool)
  | seq (a b : Regex)

/-- Length of the longest run of characters satisfying `p` at the head. -/
def maxRun (p : Char → Bool) : List Char → Nat
  | [] => 0
  | c :: cs => if p c then maxRun p cs + 1 else 0

/-- All remainders of an anchored match of `r` against `s`, in Python
backtracking priority order (greedy first). -/
def seqMatches : Regex → List Char → List (List Char)
  | .one _, [] => []
  | .one p, c :: cs => if p c then [cs] else []
  | .opt _, [] => [[]]
  | .opt p, c :: cs => if p c then [cs, c :: cs] else [c :: cs]
  | .plus p, s =>
    let m := maxRun p s
    (List.range m).map (fun i => s.drop (m - i))
  | .rep n p, s => if n ≤ maxRun p s then [s.drop n] else []
  | .repGe n p, s =>
    let m := maxRun p s
    if n ≤ m then (List.range (m - n + 1)).map (fun i => s.drop (m - i)) else []
  | .seq a b, s => (seqMatches a s).flatMap (fun t => seqMatches b t)

/-- The match language of a regex: `Matches r u` holds when `u` is exactly a
string matched by `r`. -/
inductive Matches : Regex → List Char → Prop where
  | one {p c} : p c = true → Matches (.one p) [c]
  | optNone {p} : Matches (.opt p) []
  | optSome {p c} : p c = true → Matches (.opt p) [c]
  | plus {p u} : u ≠ [] → (∀ c ∈ u, p c = true) → Matches (.plus p) u
  | rep {p u n} : u.length = n → (∀ c ∈ u, p c = true) → Matches (.rep n p) u
  | repGe {p u n} : n ≤ u.length → (∀ c ∈ u, p c = true) → Matches (.repGe n p) u
  | seq {a b u v} : Matches a u → Matches b v → Matches (.seq a b) (u ++ v)

theorem maxRun_le_length (p : Char → Bool) (s : List Char) : maxRun p s ≤ s.length := by
  induction s with
  | nil => simp [maxRun]
  | cons c cs ih =>
    simp only [maxRun, List.length_cons]
    split <;> omega

theorem take_maxRun_sat (p : Char → Bool) (s : List Char) (k : Nat) (hk : k ≤ maxRun p s) :
    ∀ c ∈ s.take k, p c = true := by
  induction s generalizing k with
  | nil => simp
  | cons c cs ih =>
    cases k with
    | zero => simp
    | succ k =>
      simp only [maxRun] at hk
      by_cases hc : p c = true
      · simp only [hc, if_true] at hk
        intro x hx
        rcases List.mem_cons.mp (by simpa using hx) with h | h
        · exact h ▸ hc
        · exact ih k (by omega) x h
      · simp [hc] at hk

theorem length_le_maxRun_of_sat (p : Char → Bool) (u t : List Char)
    (hu : ∀ c ∈ u, p c = true) : u.length ≤ maxRun p (u ++ t) := by
  induction u with
  | nil => simp
  | cons c cs ih =>
    have hc : p c = true := hu c (by simp)
    simp only [List.cons_append, maxRun, hc, if_true, List.length_cons]
    have := ih (fun x hx => hu x (by simp [hx]))
    simp only [List.append_eq] at this ⊢
    omega

/-- Characterisation of anchored matching: `t` is a listed remainder for `r`
against `s` iff some prefix `u` with `s = u ++ t` is in the match language. -/
theorem mem_seqMatches {r : Regex} {s t : List Char} :
    t ∈ seqMatches r s ↔ ∃ u, s = u ++ t ∧ Matches r u := by
  induction r generalizing s t with
  | one p =>
    cases s with
    | nil =>
      simp only [seqMatches, List.not_mem_nil, false_iff]
      rintro ⟨u, hs, hm⟩
      cases hm
      simp at hs
    | cons c cs =>
      constructor
      · intro h
        simp only [seqMatches] at h
        by_cases hc : p c = true
        · simp only [hc, if_true, List.mem_singleton] at h
          exact ⟨[c], by simp [h], Matches.one hc⟩
        · simp [hc] at h
      · rintro ⟨u, hs, hm⟩
        cases hm with
        | one hc =>
          simp only [List.cons_append, List.nil_append, List.cons.injEq] at hs
          obtain ⟨rfl, rfl⟩ := hs
          simp [seqMatches, hc]
  | opt p =>
    cases s with
    | nil =>
      constructor
      · intro h
        simp only [seqMatches, List.mem_singleton] at h
        exact ⟨[], by simp [h], Matches.optNone⟩
      · rintro ⟨u, hs, hm⟩
        have : u = [] ∧ t = [] := by
          constructor
          · cases List.append_eq_nil.mp hs.symm; assumption
          · exact (List.append_eq_nil.mp hs.symm).2
        simp [seqMatches, this.2]
    | cons c cs =>
      constructor
      · intro h
        simp only [seqMatches] at h
        by_cases hc : p c = true
        · simp only [hc, if_true] at h
          rcases List.mem_cons.mp h with h | h
          · exact ⟨[c], by simp [h], Matches.optSome hc⟩
          · simp only [List.mem_singleton] at h
            exact ⟨[], by simp [h], Matches.optNone⟩
        · simp [hc] at h
          exact ⟨[], by simp [h], Matches.optNone⟩
      · rintro ⟨u, hs, hm⟩
        cases hm with
        | optNone =>
          simp only [List.nil_append] at hs
          subst hs
          simp only [seqMatches]
          split <;> simp
        | optSome hc =>
          simp only [List.cons_append, List.nil_append, List.cons.injEq] at hs
          obtain ⟨rfl, rfl⟩ := hs
          simp [seqMatches, hc]
  | plus p =>
    constructor
    · intro h
      simp only [seqMatches, List.mem_map, List.mem_range] at h
      obtain ⟨i, hi, rfl⟩ := h
      set m := maxRun p s with hm
      set k := m - i with hk
      have hk1 : 1 ≤ k := by omega
      have hkm : k ≤ m := by omega
      have hkl : k ≤ s.length := le_trans hkm (maxRun_le_length p s)
      refine ⟨s.take k, (List.take_append_drop k s).symm, Matches.plus ?_ ?_⟩
      · intro hnil
        have := congrArg List.length hnil
        simp [List.length_take, Nat.min_eq_left hkl] at this
        omega
      · exact take_maxRun_sat p s k hkm
    · rintro ⟨u, rfl, hm⟩
      cases hm with
      | plus hne hsat =>
        have hlen : 1 ≤ u.length := by
          cases u with
          | nil => exact absurd rfl hne
          | cons _ _ => simp
        have hle : u.length ≤ maxRun p (u ++ t) := length_le_maxRun_of_sat p u t hsat
        simp only [seqMatches, List.mem_map, List.mem_range]
        refine ⟨maxRun p (u ++ t) - u.length, by omega, ?_⟩
        have : maxRun p (u ++ t) - (maxRun p (u ++ t) - u.length) = u.length := by omega
        rw [this]
        simp
  | rep n p =>
    constructor
    · intro h
      simp only [seqMatches] at h
      split at h
      · next hle =>
        simp only [List.mem_singleton] at h
        subst h
        have hkl : n ≤ s.length := le_trans hle (maxRun_le_length p s)
        refine ⟨s.take n, (List.take_append_drop n s).symm, Matches.rep ?_ ?_⟩
        · simp [List.length_take, Nat.min_eq_left hkl]
        · exact take_maxRun_sat p s n hle
      · simp at h
    · rintro ⟨u, rfl, hm⟩
      cases hm with
      | rep hlen hsat =>
        have hle : n ≤ maxRun p (u ++ t) := hlen ▸ length_le_maxRun_of_sat p u t hsat
        simp only [seqMatches, hle, if_true, List.mem_singleton]
        rw [← hlen]
        simp
  | repGe n p =>
    constructor
    · intro h
      simp only [seqMatches] at h
      split at h
      · next hle =>
        simp only [List.mem_map, List.mem_range] at h
        obtain ⟨i, hi, rfl⟩ := h
        set m := maxRun p s with hm
        set k := m - i with hk
        have hkn : n ≤ k := by omega
        have hkm : k ≤ m := by omega
        have hkl : k ≤ s.length := le_trans hkm (maxRun_le_length p s)
        refine ⟨s.take k, (List.take_append_drop k s).symm, Matches.repGe ?_ ?_⟩
        · simp [List.length_take, Nat.min_eq_left hkl]
          omega
        · exact take_maxRun_sat p s k hkm
      · simp at h
    · rintro ⟨u, rfl, hm⟩
      cases hm with
      | repGe hlen hsat =>
        have hle : u.length ≤ maxRun p (u ++ t) := length_le_maxRun_of_sat p u t hsat
        simp only [seqMatches]
        have hn : n ≤ maxRun p (u ++ t) := le_trans hlen hle
        simp only [hn, if_true, List.mem_map, List.mem_range]
        refine ⟨maxRun p (u ++ t) - u.length, by omega, ?_⟩
        have : maxRun p (u ++ t) - (maxRun p (u ++ t) - u.length) = u.length := by omega
        rw [this]
        simp
  | seq a b iha ihb =>
    constructor
    · intro h
      simp only [seqMatches, List.mem_flatMap] at h
      obtain ⟨mid, hmid, ht⟩ := h
      obtain ⟨u1, rfl, hm1⟩ := iha.mp hmid
      obtain ⟨u2, rfl, hm2⟩ := ihb.mp ht
      exact ⟨u1 ++ u2, by simp, Matches.seq hm1 hm2⟩
    · rintro ⟨u, rfl, hm⟩
      cases hm with
      | seq h1 h2 =>
        next u1 u2 =>
        simp only [seqMatches, List.mem_flatMap]
        exact ⟨u2 ++ t, iha.mpr ⟨u1, by simp, h1⟩, ihb.mpr ⟨u2, rfl, h2⟩⟩

theorem length_le_of_mem_seqMatches {r : Regex} {s t : List Char}
    (h : t ∈ seqMatches r s) : t.length ≤ s.length := by
  obtain ⟨u, rfl, _⟩ := mem_seqMatches.mp h
  simp

/-- The scan of `re.findall`, fuelled so that the recursion is structural
(each recursive call strictly shrinks the string, so fuel `s.length`
suffices): at each position take the engine's first anchored match (the head
of `seqMatches`), record the matched prefix and continue after it, otherwise
advance one character.  (A zero-width match is recorded and the scan advances
one character, as in Python; the two source patterns can never match the
empty string.) -/
def findallAux (r : Regex) : Nat → List Char → List (List Char)
  | _, [] => []
  | 0, _ :: _ => []
  | fuel + 1, c :: cs =>
    match (seqMatches r (c :: cs)).head? with
    | some t =>
      if t.length < (c :: cs).length then
        (c :: cs).take ((c :: cs).length - t.length) :: findallAux r fuel t
      else
        (c :: cs).take ((c :: cs).length - t.length) :: findallAux r fuel cs
    | none => findallAux r fuel cs

/-- `re.findall(pattern, text)`. -/
def findall (r : Regex) (s : List Char) : List (List Char) :=
  findallAux r s.length s

/-- Every string produced by the findall scan, at any fuel, is a contiguous
piece of the input and lies in the match language of the pattern. -/
theorem findallAux_sound {r : Regex} {fuel : Nat} {s m : List Char}
    (h : m ∈ findallAux r fuel s) :
    Matches r m ∧ ∃ pre post, s = pre ++ m ++ post := by
  induction fuel generalizing s with
  | zero => cases s <;> simp [findallAux] at h
  | succ fuel ih =>
    cases s with
    | nil => simp [findallAux] at h
    | cons c cs =>
      rw [findallAux] at h
      cases hhead : (seqMatches r (c :: cs)).head? with
      | none =>
        rw [hhead] at h
        obtain ⟨hm, pre, post, hsplit⟩ := ih h
        exact ⟨hm, c :: pre, post, by rw [hsplit]; simp⟩
      | some t =>
        rw [hhead] at h
        dsimp only at h
        have hmem : t ∈ seqMatches r (c :: cs) := by
          cases hl : seqMatches r (c :: cs) with
          | nil => rw [hl] at hhead; simp at hhead
          | cons x xs => rw [hl] at hhead; simp at hhead; simp [hl, hhead]
        obtain ⟨u, hu, hmu⟩ := mem_seqMatches.mp hmem
        have hulen : (c :: cs).length - t.length = u.length := by
          have := congrArg List.length hu
          simp only [List.length_cons, List.length_append] at this
          simp only [List.length_cons]
          omega
        by_cases ht : t.length < (c :: cs).length
        · rw [if_pos ht] at h
          rcases List.mem_cons.mp h with h | h
          · subst h
            refine ⟨by rwa [hulen, hu, List.take_left], [], t, ?_⟩
            rw [hulen, hu, List.take_left]
            simp
          · obtain ⟨hm, pre, post, hsplit⟩ := ih h
            exact ⟨hm, u ++ pre, post, by rw [hu, hsplit]; simp⟩
        · rw [if_neg ht] at h
          have hle : t.length ≤ (c :: cs).length := length_le_of_mem_seqMatches hmem
          have hteq : t.length = (c :: cs).length := by omega
          have huempty : u = [] := by
            have := congrArg List.length hu
            simp only [List.length_cons, List.length_append] at this
            simp only [List.length_cons] at hteq
            have : u.length = 0 := by omega
            exact List.length_eq_zero.mp this
          rcases List.mem_cons.mp h with h | h
          · subst h
            rw [hteq]
            refine ⟨by simpa using (huempty ▸ hmu), [], c :: cs, by simp⟩
          · obtain ⟨hm, pre, post, hsplit⟩ := ih h
            exact ⟨hm, c :: pre, post, by rw [hsplit]; simp⟩

/-- Every string produced by `findall` is a contiguous piece of the input and
lies in the match language of the pattern. -/
theorem findall_sound {r : Regex} {s m : List Char} (h : m ∈ findall r s) :
    Matches r m ∧ ∃ pre post, s = pre ++ m ++ post :=
  findallAux_sound h

/-! ## The two source patterns -/

/-- Characters allowed in the email local part: `[A-Za-z0-9._%+-]`. -/
def localChar (c : Char) : Bool :=
  c.isAlphanum || c = '.' || c = '_' || c = '%' || c = '+' || c = '-'

/-- Characters allowed in the email domain part: `[A-Za-z0-9.-]`. -/
def domainChar (c : Char) : Bool :=
  c.isAlphanum || c = '.' || c = '-'

/-- The (ASCII) whitespace characters matched by `\s`. -/
def spaceChar (c : Char) : Bool :=
  c = ' ' || c = '\t' || c = '\n' || c = '\r' || c = '\x0b' || c = '\x0c'

/-- The phone separator class `[-.\s]`. -/
def sepChar (c : Char) : Bool :=
  c = '-' || c = '.' || spaceChar c

/-- `EMAIL_PATTERN = re.compile(r"[A-Za-z0-9._%+-]+@[A-Za-z0-9.-]+\.[A-Za-z]{2,}")`. -/
def EMAIL_PATTERN : Regex :=
  .seq (.plus localChar)
    (.seq (.one (fun c => c = '@'))
      (.seq (.plus domainChar)
        (.seq (.one (fun c => c = '.'))
          (.repGe 2 Char.isAlpha))))

/-- `PHONE_PATTERN = re.compile(r"\(?\d{3}\)?[-.\s]?\d{3}[-.\s]?\d{4}")`. -/
def PHONE_PATTERN : Regex :=
  .seq (.opt (fun c => c = '('))
    (.seq (.rep 3 Char.isDigit)
      (.seq (.opt (fun c => c = ')'))
        (.seq (.opt sepChar)
          (.seq (.rep 3 Char.isDigit)
            (.seq (.opt sepChar)
              (.rep 4 Char.isDigit))))))

/-! ## Python string splitting (`str.split(sep)` with a non-empty separator)

Needed for the business-name line `name = url.split("//")[-1].split("/")[0]`
of `scrape_page`. -/

/-- If `sep` is a prefix of `s`, the remainder of `s` after it. -/
def dropSep : List Char → List Char → Option (List Char)
  | [], s => some s
  | _ :: _, [] => none
  | a :: as, b :: bs => if a = b then dropSep as bs else none

theorem dropSep_length {sep s r : List Char} (h : dropSep sep s = some r) :
    r.length + sep.length = s.length := by
  induction sep generalizing s with
  | nil => simp_all [dropSep]
  | cons a as ih =>
    cases s with
    | nil => simp [dropSep] at h
    | cons b bs =>
      simp only [dropSep] at h
      split at h
      · have := ih h
        simp only [List.length_cons]
        omega
      · simp at h

/-- Split on the non-empty separator `sep0 :: sep`, scanning left to right
over non-overlapping occurrences (Python `str.split(sep)` semantics).
Fuelled so the recursion is structural; every recursive call strictly
shrinks the string, so fuel `s.length` suffices. -/
def splitChars (sep0 : Char) (sep : List Char) : Nat → List Char → List Char → List (List Char)
  | _, [], acc => [acc.reverse]
  | 0, s, acc => [acc.reverse ++ s]
  | fuel + 1, c :: cs, acc =>
    match dropSep (sep0 :: sep) (c :: cs) with
    | some rest => acc.reverse :: splitChars sep0 sep fuel rest []
    | none => splitChars sep0 sep fuel cs (c :: acc)

/-- Python `s.split(sep)` for a non-empty `sep` (an empty separator is a
`ValueError` in Python; we return the string unsplit). -/
def pySplit (sep s : String) : List String :=
  match sep.toList with
  | [] => [s]
  | c :: cs => (splitChars c cs s.toList.length s.toList []).map String.mk

/-- The host extraction of `scrape_page`:
`url.split("//")[-1].split("/")[0]`. -/
def hostOf (url : String) : String :=
  ((pySplit "/" ((pySplit "//" url).getLastD "")).headD "")

/-! ## The data model of the pipeline -/

/-- The dict returned by `scrape_page`: keys `name`, `email`, `phone`,
`website`. -/
structure Contact where
  name : String
  email : List String
  phone : List String
  website : String
deriving Repr, DecidableEq

/-- The JSON payload POSTed to `https://api.brevo.com/v3/contacts`. -/
structure Payload where
  email : String
  FIRSTNAME : String
  COMPANY : String
  PHONE : String
  WEBSITE : String
  listIds : List Nat
deriving Repr, DecidableEq

/-- A Brevo POST outcome: a transport exception message, or a status code
together with the response body text. -/
abbrev BrevoResp := Except String (Nat × String)

instance : DecidableEq BrevoResp := fun a b =>
  match a, b with
  | .error x, .error y =>
    if h : x = y then .isTrue (by simp [h]) else .isFalse (by simp [h])
  | .ok x, .ok y =>
    if h : x = y then .isTrue (by simp [h]) else .isFalse (by simp [h])
  | .error _, .ok _ => .isFalse (by simp)
  | .ok _, .error _ => .isFalse (by simp)

/-- Observable collaborator interactions: an invocation of the search
collaborator `query_google_places` with its query, or an HTTP POST to the
upload collaborator with the payload and the outcome observed. -/
inductive Event where
  | searchCall (q : String)
  | post (p : Payload) (resp : BrevoResp)
deriving DecidableEq

/-- One entry of the Places text-search `results` array, as consumed by the
source (`website` and `place_id` keys, either possibly absent). -/
structure PlaceResult where
  website : Option String
  place_id : Option String

/-- The external HTTP world, as oracles: `search q` is the parsed Places
response (or a transport/JSON exception), `fetch url` the page body (or an
exception), and `brevo e` the response to POSTing the contact with email `e`
(each email is POSTed at most once, so keying the oracle by email loses no
generality). -/
structure Env where
  search : String → Except String (List PlaceResult)
  fetch : String → Except String String
  brevo : String → BrevoResp

/-! ## The pipeline functions -/

/-- `def query_google_places(text_query)`: set the status, then on success
collect, per result, the `website` field or the fallback place link, capped
to the first 20; on any exception log and return no links. -/
def query_google_places (resp : Except String (List PlaceResult)) (st : AppState)
    (text_query : String) : AppState × List String :=
  let st := set_status st ("Querying: " ++ text_query)
  match resp with
  | .error e => (log st ("⚠️ Google Places query failed: " ++ e), [])
  | .ok results =>
    let links := results.filterMap (fun r =>
      match r.website with
      | some w => some w
      | none =>
        match r.place_id with
        | some pid => some ("https://www.google.com/maps/place/?q=place_id:" ++ pid)
        | none => none)
    (st, links.take 20)

/-- `def scrape_page(url)`: set the status, fetch the page; on success run
both patterns over the raw body (`list(set(findall(...)))`, modelled with a
deterministic duplicate removal) and take the URL host as the business name;
on any exception log the failing URL and return `None`.  The embedding is a
total function: no error ever propagates to the caller. -/
def scrape_page (fetch : Except String String) (st : AppState) (url : String) :
    AppState × Option Contact :=
  let st := set_status st ("Scanning: " ++ url)
  match fetch with
  | .error e => (log st ("⚠️ Scrape fail " ++ url ++ ": " ++ e), none)
  | .ok text =>
    let emails := ((findall EMAIL_PATTERN text.toList).map String.mk).dedup
    let phones := ((findall PHONE_PATTERN text.toList).map String.mk).dedup
    let name := hostOf url
    (st, some { name := name, email := emails, phone := phones, website := url })

/-- `def add_to_brevo(contact)`: return early when the contact has no email
or its first email was already uploaded; otherwise mark the email as
uploaded, POST the payload, and on a 200/201 response bump the counter.
The second component is the list of POSTs performed (empty or a single
post event). -/
def add_to_brevo (brevo : String → BrevoResp) (st : AppState) (contact : Contact) :
    AppState × List Event :=
  match contact.email with
  | [] => (st, [])
  | email :: _ =>
    if email ∈ st.uploaded_emails then (st, [])
    else
      let st := { st with uploaded_emails := email :: st.uploaded_emails }
      let payload : Payload :=
        { email := email
          FIRSTNAME := contact.name
          COMPANY := contact.name
          PHONE := contact.phone.headD ""
          WEBSITE := contact.website
          listIds := [BREVO_LIST_ID] }
      match brevo email with
      | .ok (code, body) =>
        if code = 200 ∨ code = 201 then
          let st := { st with uploaded_count := st.uploaded_count + 1 }
          (log st ("✅ Uploaded: " ++ email ++ " (" ++ toString st.uploaded_count ++ " total)"),
           [.post payload (.ok (code, body))])
        else
          (log st ("⚠️ Brevo response: " ++ toString code ++ " - " ++ body),
           [.post payload (.ok (code, body))])
      | .error e =>
        (log st ("❌ Brevo upload failed: " ++ e), [.post payload (.error e)])

/-- The inner loop of `run_scraper` over one query's result sites: scrape
each, and upload when a contact with at least one email was produced.  The
`time.sleep(1)` pacing has no modelled effect. -/
def process_sites (env : Env) : AppState → List String → AppState × List Event
  | st, [] => (st, [])
  | st, site :: rest =>
    let sr := scrape_page (env.fetch site) st site
    let br :=
      match sr.2 with
      | some info => if info.email.isEmpty then (sr.1, []) else add_to_brevo env.brevo sr.1 info
      | none => (sr.1, [])
    let rr := process_sites env br.1 rest
    (rr.1, br.2 ++ rr.2)

/-- The outer loop of `run_scraper` over the query terms; a `searchCall`
event is recorded for each invocation of the search collaborator. -/
def run_queries (env : Env) : AppState → List String → AppState × List Event
  | st, [] => (st, [])
  | st, q :: qs =>
    let qr := query_google_places (env.search q) st q
    let pr := process_sites env qr.1 qr.2
    let rr := run_queries env pr.1 qs
    (rr.1, Event.searchCall q :: (pr.2 ++ rr.2))

/-- `def run_scraper()`: reset the counter, log the start line, loop over
`SEARCH_QUERIES`, then set the completion status and log the finish line. -/
def run_scraper (env : Env) (st : AppState) : AppState × List Event :=
  let st := log { st with uploaded_count := 0 } "🚀 Scraper started."
  let rr := run_queries env st SEARCH_QUERIES
  let st := set_status rr.1 "✅ Completed all queries."
  (log st "🎯 Run finished.", rr.2)

/-! ## Process lifetimes -/

/-- One invocation in a process lifetime: a `scrape_page` call or an
`add_to_brevo` call, with the oracles it sees. -/
inductive Step where
  | scrape (fetch : Except String String) (url : String)
  | upload (brevo : String → BrevoResp) (contact : Contact)

/-- Run an arbitrary sequence of `scrape_page` / `add_to_brevo` invocations
(covering any interleaving over any number of runs), collecting the POST
events. -/
def runSteps : AppState → List Step → AppState × List Event
  | st, [] => (st, [])
  | st, step :: rest =>
    let sr :=
      match step with
      | .scrape f url => ((scrape_page f st url).1, ([] : List Event))
      | .upload br c => add_to_brevo br st c
    let rr := runSteps sr.1 rest
    (rr.1, sr.2 ++ rr.2)

/-- The emails of all POSTs in a trace, in order. -/
def postEmails (evs : List Event) : List String :=
  evs.filterMap (fun ev =>
    match ev with
    | .post p _ => some p.email
    | _ => none)

/-- The emails of the POSTs answered with HTTP 200 or 201, in order. -/
def successEmails (evs : List Event) : List String :=
  evs.filterMap (fun ev =>
    match ev with
    | .post p (.ok (code, _)) => if code = 200 ∨ code = 201 then some p.email else none
    | _ => none)

/-- The queries of the search-collaborator invocations in a trace, in
order. -/
def searchQueries (evs : List Event) : List String :=
  evs.filterMap (fun ev =>
    match ev with
    | .searchCall q => some q
    | _ => none)

/-- Does this step submit a contact whose first email is `e`? -/
def submitsEmail (e : String) : Step → Bool
  | .upload _ c => c.email.head? == some e
  | .scrape _ _ => false

/-- A Brevo response that the source treats as a failed upload: a transport
exception, or a status code other than 200/201. -/
def uploadFailed : BrevoResp → Prop
  | .error _ => True
  | .ok (code, _) => code ≠ 200 ∧ code ≠ 201

/-- Does `needle` occur as a contiguous substring of the haystack? -/
def containsSub (needle : List Char) : List Char → Bool
  | [] => (dropSep needle []).isSome
  | c :: cs => (dropSep needle (c :: cs)).isSome || containsSub needle cs

/-- Modelled from the spec: the display-name heuristic of §4.2 — scan the
heading/paragraph-like text blocks for the first one containing any of the
vocabulary realtor/agent/team/broker/staff/about (case-insensitive substring
match), truncated to 60 characters; empty when no block matches.  This
heuristic is absent from the source `scrape_page`, which instead takes the
URL host as the name. -/
def specDisplayName (blocks : List String) : String :=
  match blocks.find? (fun b =>
      ["realtor", "agent", "team", "broker", "staff", "about"].any (fun w =>
        containsSub w.toList (b.toList.map Char.toLower))) with
  | some b => String.mk (b.toList.take 60)
  | none => ""

/-! ## Frame lemmas: logging never touches the dedup set or the counter -/

@[simp] theorem log_uploaded_emails (st : AppState) (msg : String) :
    (log st msg).uploaded_emails = st.uploaded_emails := rfl

@[simp] theorem log_uploaded_count (st : AppState) (msg : String) :
    (log st msg).uploaded_count = st.uploaded_count := rfl

@[simp] theorem set_status_uploaded_emails (st : AppState) (s : String) :
    (set_status st s).uploaded_emails = st.uploaded_emails := rfl

@[simp] theorem set_status_uploaded_count (st : AppState) (s : String) :
    (set_status st s).uploaded_count = st.uploaded_count := rfl

@[simp] theorem scrape_page_uploaded_emails (f : Except String String) (st : AppState)
    (url : String) : (scrape_page f st url).1.uploaded_emails = st.uploaded_emails := by
  unfold scrape_page
  cases f <;> rfl

@[simp] theorem scrape_page_uploaded_count (f : Except String String) (st : AppState)
    (url : String) : (scrape_page f st url).1.uploaded_count = st.uploaded_count := by
  unfold scrape_page
  cases f <;> rfl

@[simp] theorem query_google_places_uploaded_emails (r : Except String (List PlaceResult))
    (st : AppState) (q : String) :
    (query_google_places r st q).1.uploaded_emails = st.uploaded_emails := by
  unfold query_google_places
  cases r <;> rfl

@[simp] theorem query_google_places_uploaded_count (r : Except String (List PlaceResult))
    (st : AppState) (q : String) :
    (query_google_places r st q).1.uploaded_count = st.uploaded_count := by
  unfold query_google_places
  cases r <;> rfl

theorem tail_concat_getLast {α} (l : List α) (a : α) (h : l ≠ []) :
    ((l ++ [a]).tail).getLast? = some a := by
  cases l with
  | nil => exact absurd rfl h
  | cons x xs => simp

/-- `log` always leaves the newest message at the back of the buffer. -/
theorem log_getLast (st : AppState) (msg : String) :
    (log st msg).log_lines.getLast? = some msg := by
  simp only [log]
  split
  · next h =>
    apply tail_concat_getLast
    intro hl
    rw [hl] at h
    simp at h
  · exact List.getLast?_concat _

/-! ## C7: scrape failures are caught, logged with the URL, and yield none -/

/-- C7: for every URL, when the page fetch raises an error the error is
caught inside `scrape_page`: the function returns no contact (`None`), and a
failure line naming the URL is appended as the newest log line.  The
embedding of `scrape_page` is a total function, so the error never
propagates to the caller. -/
theorem scrape_page_catches_errors (st : AppState) (url e : String) :
    (scrape_page (.error e) st url).2 = none ∧
    (scrape_page (.error e) st url).1.log_lines.getLast?
      = some ("⚠️ Scrape fail " ++ url ++ ": " ++ e) := by
  exact ⟨rfl, log_getLast _ _⟩

/-! ## C9: the log buffer is bounded with oldest-first eviction -/

/-- C9: appending through `log` (hence also `set_status` and every pipeline
logging call) keeps the buffer length at most 200; the resulting buffer is a
tail-end slice of the old buffer plus the new line, i.e. when the cap is
exceeded the oldest line is evicted and the order of the remaining lines is
preserved. -/
theorem log_bounded_evicts_oldest (st : AppState) (msg : String)
    (h : st.log_lines.length ≤ 200) :
    (log st msg).log_lines.length ≤ 200 ∧
    ∃ k, (log st msg).log_lines = (st.log_lines ++ [msg]).drop k := by
  unfold log
  split
  · next hgt =>
    refine ⟨?_, 1, (List.drop_one _).symm⟩
    simp only [List.length_tail, List.length_append, List.length_singleton] at *
    omega
  · next hle =>
    refine ⟨?_, 0, by simp⟩
    simp only [List.length_append, List.length_singleton] at *
    omega

theorem log_bounded_evicts_oldest_witness :
    (log initialState "x").log_lines.length ≤ 200 ∧
    ∃ k, (log initialState "x").log_lines = (initialState.log_lines ++ ["x"]).drop k :=
  log_bounded_evicts_oldest initialState "x" (by decide)

/-! ## C8: the display name actually comes from the URL host -/

/-- C8 counterexample: on a page whose whole text is the single block
`"About our Realtor Team"` (which contains the vocabulary words `realtor`,
`team` and `about`), the spec's heuristic would return that block, but
`scrape_page` returns the URL host `"example.com"`; in particular for a page
with no matching block the name would still be the (non-empty) host.  The
claim that the display name is derived by scanning text blocks is false of
the source. -/
theorem scrape_page_name_ignores_blocks :
    ((scrape_page (.ok "About our Realtor Team") initialState
        "http://example.com/agents").2).map Contact.name = some "example.com" ∧
    specDisplayName ["About our Realtor Team"] = "About our Realtor Team" ∧
    ("example.com" : String) ≠ "About our Realtor Team" := by
  refine ⟨by rfl, by rfl, by decide⟩

/-- C8 (amended): for every successfully fetched page the extractor derives
the display name from the URL alone — the host component, i.e. the text after
the last `"//"` up to the next `"/"` — regardless of the page's text blocks. -/
theorem scrape_page_name_eq_host (text : String) (st : AppState) (url : String) :
    ((scrape_page (.ok text) st url).2).map Contact.name = some (hostOf url) := rfl

/-! ## C10: payload field derivation -/

/-- Every POST emitted by `add_to_brevo` carries `FIRSTNAME` and `COMPANY`
both equal to the contact's `name`, and `PHONE` equal to the first phone or
`""`. -/
theorem add_to_brevo_post_fields {br : String → BrevoResp} {st : AppState}
    {c : Contact} {p : Payload} {r : BrevoResp}
    (hp : Event.post p r ∈ (add_to_brevo br st c).2) :
    p.FIRSTNAME = c.name ∧ p.COMPANY = c.name ∧ p.PHONE = c.phone.headD "" := by
  unfold add_to_brevo at hp
  cases hc : c.email with
  | nil => rw [hc] at hp; simp at hp
  | cons e rest =>
    rw [hc] at hp
    by_cases hm : e ∈ st.uploaded_emails
    · simp [hm] at hp
    · simp only [if_neg hm] at hp
      cases hb : br e with
      | ok cr =>
        obtain ⟨code, body⟩ := cr
        rw [hb] at hp
        by_cases hcode : code = 200 ∨ code = 201
        · simp only [if_pos hcode, List.mem_singleton, Event.post.injEq] at hp
          obtain ⟨rfl, -⟩ := hp
          exact ⟨rfl, rfl, rfl⟩
        · simp only [if_neg hcode, List.mem_singleton, Event.post.injEq] at hp
          obtain ⟨rfl, -⟩ := hp
          exact ⟨rfl, rfl, rfl⟩
      | error err =>
        rw [hb] at hp
        simp only [List.mem_singleton, Event.post.injEq] at hp
        obtain ⟨rfl, -⟩ := hp
        exact ⟨rfl, rfl, rfl⟩

/-- C10: for every upload performed by `add_to_brevo` on a contact produced
by `scrape_page`, the payload's `FIRSTNAME` and `COMPANY` attributes are
equal to each other — both are the host component of the scraped URL — and
the `PHONE` attribute is the first extracted phone number when the phones
list is non-empty and the empty string otherwise. -/
theorem upload_payload_fields (br : String → BrevoResp) (text : String)
    (st st2 : AppState) (url : String) (c : Contact) (p : Payload) (r : BrevoResp)
    (hc : (scrape_page (.ok text) st url).2 = some c)
    (hp : Event.post p r ∈ (add_to_brevo br st2 c).2) :
    p.FIRSTNAME = p.COMPANY ∧ p.FIRSTNAME = hostOf url ∧
    p.PHONE = (if c.phone = [] then "" else c.phone.headD "") := by
  obtain ⟨h1, h2, h3⟩ := add_to_brevo_post_fields hp
  have hname : c.name = hostOf url := by
    have := congrArg (Option.map Contact.name) hc
    rw [scrape_page_name_eq_host] at this
    simpa using this.symm
  refine ⟨h1.trans h2.symm, h1.trans hname, ?_⟩
  rw [h3]
  cases c.phone <;> simp

/-- The contact extracted from a page whose whole text is `"a@b.co"` at
`http://x.y/z`: used to exercise `upload_payload_fields` concretely. -/
def sampleContact : Contact :=
  { name := "x.y", email := ["a@b.co"], phone := [], website := "http://x.y/z" }

/-- The payload `add_to_brevo` builds for `sampleContact`. -/
def samplePayload : Payload :=
  { email := "a@b.co", FIRSTNAME := "x.y", COMPANY := "x.y", PHONE := "",
    WEBSITE := "http://x.y/z", listIds := [4] }

theorem upload_payload_fields_witness :
    samplePayload.FIRSTNAME = samplePayload.COMPANY ∧
    samplePayload.FIRSTNAME = hostOf "http://x.y/z" ∧
    samplePayload.PHONE = (if sampleContact.phone = [] then "" else sampleContact.phone.headD "") :=
  upload_payload_fields (fun _ => .ok (200, "")) "a@b.co" initialState initialState
    "http://x.y/z" sampleContact samplePayload (.ok (200, "")) (by rfl) (by decide)

/-! ## C6: one search-collaborator call per query term, in order -/

@[simp] theorem searchQueries_nil : searchQueries [] = [] := rfl

@[simp] theorem searchQueries_cons_post (p : Payload) (r : BrevoResp) (evs : List Event) :
    searchQueries (Event.post p r :: evs) = searchQueries evs := rfl

@[simp] theorem searchQueries_cons_call (q : String) (evs : List Event) :
    searchQueries (Event.searchCall q :: evs) = q :: searchQueries evs := rfl

@[simp] theorem searchQueries_append (a b : List Event) :
    searchQueries (a ++ b) = searchQueries a ++ searchQueries b :=
  List.filterMap_append ..

/-- `add_to_brevo` performs no POST or exactly one. -/
theorem add_to_brevo_events (br : String → BrevoResp) (st : AppState) (c : Contact) :
    (add_to_brevo br st c).2 = [] ∨ ∃ p r, (add_to_brevo br st c).2 = [Event.post p r] := by
  obtain ⟨cn, ce, cp, cw⟩ := c
  unfold add_to_brevo
  cases ce with
  | nil => exact .inl rfl
  | cons e rest =>
    dsimp only
    by_cases hm : e ∈ st.uploaded_emails
    · rw [if_pos hm]
      exact .inl rfl
    · rw [if_neg hm]
      cases hb : br e with
      | ok cr =>
        obtain ⟨code, body⟩ := cr
        dsimp only
        by_cases hcode : code = 200 ∨ code = 201
        · rw [if_pos hcode]
          exact .inr ⟨_, _, rfl⟩
        · rw [if_neg hcode]
          exact .inr ⟨_, _, rfl⟩
      | error err =>
        dsimp only
        exact .inr ⟨_, _, rfl⟩

theorem searchQueries_add_to_brevo (br : String → BrevoResp) (st : AppState) (c : Contact) :
    searchQueries (add_to_brevo br st c).2 = [] := by
  rcases add_to_brevo_events br st c with h | ⟨p, r, h⟩ <;> rw [h] <;> rfl

/-- The inner site loop never invokes the search collaborator. -/
theorem process_sites_no_search (env : Env) (st : AppState) (sites : List String) :
    searchQueries (process_sites env st sites).2 = [] := by
  induction sites generalizing st with
  | nil => rfl
  | cons site rest ih =>
    simp only [process_sites, searchQueries_append]
    rw [ih]
    cases (scrape_page (env.fetch site) st site).2 with
    | none => rfl
    | some info =>
      by_cases he : info.email.isEmpty
      · simp [he]
      · simp [he, searchQueries_add_to_brevo]

theorem run_queries_search_calls (env : Env) (st : AppState) (qs : List String) :
    searchQueries (run_queries env st qs).2 = qs := by
  induction qs generalizing st with
  | nil => rfl
  | cons q rest ih =>
    simp only [run_queries, searchQueries_cons_call, searchQueries_append,
      process_sites_no_search, ih, List.nil_append]

/-- C6: for a query list of length K, one invocation of the run loop calls
the search collaborator exactly K times, once per query term, in the order
the terms appear in the list (the trace of search invocations is the query
list itself); in particular one `run_scraper` call produces exactly the
`SEARCH_QUERIES` invocations, in order. -/
theorem run_scraper_search_once_per_query (env : Env) (st : AppState) :
    (∀ qs, searchQueries (run_queries env st qs).2 = qs) ∧
    searchQueries (run_scraper env st).2 = SEARCH_QUERIES :=
  ⟨fun qs => run_queries_search_calls env st qs,
   run_queries_search_calls env _ SEARCH_QUERIES⟩

/-! ## The deduplication invariant (C1, C2, C3) -/

@[simp] theorem postEmails_nil : postEmails [] = [] := rfl

@[simp] theorem postEmails_append (a b : List Event) :
    postEmails (a ++ b) = postEmails a ++ postEmails b :=
  List.filterMap_append ..

@[simp] theorem successEmails_nil : successEmails [] = [] := rfl

@[simp] theorem successEmails_append (a b : List Event) :
    successEmails (a ++ b) = successEmails a ++ successEmails b :=
  List.filterMap_append ..

/-- The confirmed-upload emails of a trace form a sublist of all POSTed
emails. -/
theorem successEmails_sublist (evs : List Event) :
    List.Sublist (successEmails evs) (postEmails evs) := by
  induction evs with
  | nil => simp
  | cons ev rest ih =>
    cases ev with
    | searchCall q => exact ih
    | post p r =>
      cases r with
      | error e => exact List.Sublist.cons _ ih
      | ok cr =>
        obtain ⟨code, body⟩ := cr
        by_cases hcode : code = 200 ∨ code = 201
        · simp only [successEmails, postEmails, List.filterMap_cons]
          simp only [if_pos hcode]
          exact List.Sublist.cons₂ _ ih
        · simp only [successEmails, postEmails, List.filterMap_cons]
          simp only [if_neg hcode]
          exact List.Sublist.cons _ ih

/-- Exhaustive description of one `add_to_brevo` call: either the call is
skipped (no email, or the first email is already in the dedup set) and
changes nothing, or the first email `e` is fresh, exactly one POST with `e`
is emitted, `e` enters the dedup set, and the counter grows by the number of
confirmed uploads in the emitted trace. -/
theorem add_to_brevo_cases (br : String → BrevoResp) (st : AppState) (c : Contact) :
    (add_to_brevo br st c = (st, []) ∧
      (c.email = [] ∨ ∃ e t, c.email = e :: t ∧ e ∈ st.uploaded_emails))
    ∨ ∃ e t, c.email = e :: t ∧ e ∉ st.uploaded_emails ∧
        postEmails (add_to_brevo br st c).2 = [e] ∧
        (add_to_brevo br st c).1.uploaded_emails = e :: st.uploaded_emails ∧
        (add_to_brevo br st c).1.uploaded_count
          = st.uploaded_count + (successEmails (add_to_brevo br st c).2).length := by
  obtain ⟨cn, ce, cp, cw⟩ := c
  unfold add_to_brevo
  cases ce with
  | nil => exact .inl ⟨rfl, .inl rfl⟩
  | cons e rest =>
    dsimp only
    by_cases hm : e ∈ st.uploaded_emails
    · rw [if_pos hm]
      exact .inl ⟨rfl, .inr ⟨e, rest, rfl, hm⟩⟩
    · rw [if_neg hm]
      refine .inr ⟨e, rest, rfl, hm, ?_⟩
      cases hb : br e with
      | ok cr =>
        obtain ⟨code, body⟩ := cr
        dsimp only
        by_cases hcode : code = 200 ∨ code = 201
        · rw [if_pos hcode]
          refine ⟨rfl, rfl, ?_⟩
          simp [successEmails, hcode, log]
        · rw [if_neg hcode]
          refine ⟨rfl, rfl, ?_⟩
          simp [successEmails, hcode, log]
      | error err =>
        dsimp only
        exact ⟨rfl, rfl, by simp [successEmails, log]⟩

/-- When the contact's first email is already in the dedup set the call is a
complete no-op: no POST, no state change. -/
theorem add_to_brevo_skips_seen (br : String → BrevoResp) (st : AppState) (c : Contact)
    (e : String) (hhead : c.email.head? = some e) (hmem : e ∈ st.uploaded_emails) :
    add_to_brevo br st c = (st, []) := by
  rcases add_to_brevo_cases br st c with ⟨heq, -⟩ | ⟨e', t, hce, hfresh, -⟩
  · exact heq
  · rw [hce] at hhead
    simp only [List.head?_cons, Option.some.injEq] at hhead
    exact absurd (hhead ▸ hmem) hfresh

/-- Master induction for C1: over any sequence of pipeline invocations, the
number of POSTs carrying `e` is 0 when `e` is already dedup-consumed,
1 when it is fresh and some invocation submits it, 0 otherwise; and the
dedup set only grows. -/
theorem runSteps_count_email (steps : List Step) (st : AppState) (e : String) :
    (postEmails (runSteps st steps).2).count e
      = (if e ∈ st.uploaded_emails then 0
         else if steps.any (submitsEmail e) then 1 else 0) ∧
    st.uploaded_emails ⊆ (runSteps st steps).1.uploaded_emails := by
  induction steps generalizing st with
  | nil => simp [runSteps]
  | cons step rest ih =>
    cases step with
    | scrape f url =>
      simp only [runSteps, postEmails_append, List.count_append, List.any_cons,
        submitsEmail, Bool.false_or]
      obtain ⟨h1, h2⟩ := ih ((scrape_page f st url).1)
      rw [scrape_page_uploaded_emails] at h1 h2
      exact ⟨by simpa using h1, h2⟩
    | upload br c =>
      simp only [runSteps, postEmails_append, List.count_append, List.any_cons]
      rcases add_to_brevo_cases br st c with ⟨heq, hskip⟩ | ⟨e', t, hce, hfresh, hpost, hset, -⟩
      · rw [heq]
        obtain ⟨h1, h2⟩ := ih st
        dsimp only
        rw [h1]
        refine ⟨?_, h2⟩
        rcases hskip with hnil | ⟨e', t, hcons, hmem⟩
        · simp [submitsEmail, hnil]
        · by_cases hee : e' = e
          · subst hee
            simp [hmem]
          · simp [submitsEmail, hcons, hee]
      · rw [hpost]
        obtain ⟨h1, h2⟩ := ih ((add_to_brevo br st c).1)
        rw [hset] at h1 h2
        by_cases hee : e' = e
        · subst hee
          rw [h1]
          simp only [submitsEmail, hce, List.head?_cons, beq_self_eq_true, Bool.true_or,
            if_true, List.mem_cons, true_or, if_pos, if_neg hfresh]
          refine ⟨?_, fun x hx => h2 (by simp [hx])⟩
          simp [if_neg hfresh]
        · have hee' : e ≠ e' := fun h => hee h.symm
          have hmem_iff : (e ∈ e' :: st.uploaded_emails) ↔ e ∈ st.uploaded_emails := by
            constructor
            · intro h
              rcases List.mem_cons.mp h with h | h
              · exact absurd h.symm hee
              · exact h
            · exact List.mem_cons_of_mem _
          refine ⟨?_, fun x hx => h2 (List.mem_cons_of_mem _ hx)⟩
          rw [h1]
          have hsubfalse : submitsEmail e (Step.upload br c) = false := by
            simp [submitsEmail, hce, hee]
          simp only [hsubfalse, Bool.false_or]
          have hc0 : List.count e [e'] = 0 := by simp [hee']
          rw [hc0]
          by_cases hmem : e ∈ st.uploaded_emails
          · rw [if_pos (hmem_iff.mpr hmem), if_pos hmem]
          · rw [if_neg (fun h => hmem (hmem_iff.mp h)), if_neg hmem]
            simp

/-- C1: over the lifetime of the process (any sequence of `scrape_page` /
`add_to_brevo` invocations starting from the initial state), the upload
collaborator is POSTed a given email at most once; and if some invocation
submits a contact whose first email is `e`, the POST carrying `e` happens
exactly once. -/
theorem pipeline_uploads_each_email_once (steps : List Step) (e : String) :
    (postEmails (runSteps initialState steps).2).count e ≤ 1 ∧
    (steps.any (submitsEmail e) = true →
      (postEmails (runSteps initialState steps).2).count e = 1) := by
  have h := (runSteps_count_email steps initialState e).1
  have hmem : e ∉ initialState.uploaded_emails := by simp [initialState]
  rw [if_neg hmem] at h
  rw [h]
  constructor
  · split <;> omega
  · intro hany
    rw [if_pos hany]

/-- A lifetime that submits the same contact (first email `"a@b.co"`)
twice. -/
def sampleSteps : List Step :=
  [Step.upload (fun _ => .ok (200, "")) sampleContact,
   Step.upload (fun _ => .ok (200, "")) sampleContact]

theorem pipeline_uploads_each_email_once_witness :
    (postEmails (runSteps initialState sampleSteps).2).count "a@b.co" ≤ 1 ∧
    (sampleSteps.any (submitsEmail "a@b.co") = true →
      (postEmails (runSteps initialState sampleSteps).2).count "a@b.co" = 1) :=
  pipeline_uploads_each_email_once sampleSteps "a@b.co"

/-- C2: when `add_to_brevo` attempts an upload of a fresh email `e` and the
upload fails (a non-200/201 status or a transport exception), `e` is
nevertheless already in the deduplication set afterwards, and any later
attempt with the same first email — after any further sequence of pipeline
invocations — performs no POST at all.  The failed email is never
retried. -/
theorem failed_upload_never_retried (br : String → BrevoResp) (st : AppState)
    (c : Contact) (e : String)
    (hhead : c.email.head? = some e)
    (hfresh : e ∉ st.uploaded_emails)
    (hfail : uploadFailed (br e)) :
    e ∈ (add_to_brevo br st c).1.uploaded_emails ∧
    ∀ (steps : List Step) (br2 : String → BrevoResp) (c2 : Contact),
      c2.email.head? = some e →
      (add_to_brevo br2 (runSteps (add_to_brevo br st c).1 steps).1 c2).2 = [] := by
  have hin : e ∈ (add_to_brevo br st c).1.uploaded_emails := by
    rcases add_to_brevo_cases br st c with ⟨heq, hskip⟩ | ⟨e', t, hce, -, -, hset, -⟩
    · rcases hskip with hnil | ⟨e', t, hcons, hmem⟩
      · rw [hnil] at hhead
        simp at hhead
      · rw [hcons] at hhead
        simp only [List.head?_cons, Option.some.injEq] at hhead
        exact absurd (hhead ▸ hmem) hfresh
    · rw [hce] at hhead
      simp only [List.head?_cons, Option.some.injEq] at hhead
      rw [hset, hhead]
      exact List.mem_cons_self _ _
  refine ⟨hin, fun steps br2 c2 hh2 => ?_⟩
  have hmono := (runSteps_count_email steps (add_to_brevo br st c).1 e).2
  have hin2 : e ∈ (runSteps (add_to_brevo br st c).1 steps).1.uploaded_emails := hmono hin
  exact congrArg Prod.snd (add_to_brevo_skips_seen br2 _ c2 e hh2 hin2)

/-- A failing Brevo oracle. -/
def failBrevo : String → BrevoResp := fun _ => .error "boom"

theorem failed_upload_never_retried_witness :
    "a@b.co" ∈ (add_to_brevo failBrevo initialState sampleContact).1.uploaded_emails ∧
    ∀ (steps : List Step) (br2 : String → BrevoResp) (c2 : Contact),
      c2.email.head? = some "a@b.co" →
      (add_to_brevo br2
        (runSteps (add_to_brevo failBrevo initialState sampleContact).1 steps).1 c2).2 = [] :=
  failed_upload_never_retried failBrevo initialState sampleContact "a@b.co"
    (by rfl) (by decide) trivial

/-! ## C3: the counter counts exactly the confirmed uploads of the run -/

@[simp] theorem postEmails_cons_call (q : String) (evs : List Event) :
    postEmails (Event.searchCall q :: evs) = postEmails evs := rfl

@[simp] theorem successEmails_cons_call (q : String) (evs : List Event) :
    successEmails (Event.searchCall q :: evs) = successEmails evs := rfl

/-- Invariant tying a pre-state, a post-state and the trace emitted between
them: the counter grew by exactly the number of confirmed uploads, the
POSTed emails are pairwise distinct, all fresh with respect to the pre-state
dedup set, and all recorded in the post-state dedup set, which only grew. -/
structure TraceInv (st st' : AppState) (evs : List Event) : Prop where
  count_eq : st'.uploaded_count = st.uploaded_count + (successEmails evs).length
  nodup : (postEmails evs).Nodup
  fresh : ∀ e ∈ postEmails evs, e ∉ st.uploaded_emails
  mono : st.uploaded_emails ⊆ st'.uploaded_emails
  recorded : ∀ e ∈ postEmails evs, e ∈ st'.uploaded_emails

/-- A step that emits no events and does not touch the dedup set or the
counter satisfies the invariant. -/
theorem traceInv_of_frame {st st' : AppState}
    (he : st'.uploaded_emails = st.uploaded_emails)
    (hc : st'.uploaded_count = st.uploaded_count) :
    TraceInv st st' [] :=
  ⟨by simp [hc], List.nodup_nil, by simp, by intro x hx; rw [he]; exact hx, by simp⟩

theorem TraceInv.comp {st1 st2 st3 : AppState} {evs1 evs2 : List Event}
    (h1 : TraceInv st1 st2 evs1) (h2 : TraceInv st2 st3 evs2) :
    TraceInv st1 st3 (evs1 ++ evs2) where
  count_eq := by
    rw [h2.count_eq, h1.count_eq, successEmails_append, List.length_append]
    omega
  nodup := by
    rw [postEmails_append]
    refine List.Nodup.append h1.nodup h2.nodup ?_
    intro e he1 he2
    exact h2.fresh e he2 (h1.recorded e he1)
  fresh := by
    rw [postEmails_append]
    intro e he
    rcases List.mem_append.mp he with h | h
    · exact h1.fresh e h
    · intro hin
      exact h2.fresh e h (h1.mono hin)
  mono := h1.mono.trans h2.mono
  recorded := by
    rw [postEmails_append]
    intro e he
    rcases List.mem_append.mp he with h | h
    · exact h2.mono (h1.recorded e h)
    · exact h2.recorded e h

theorem TraceInv.searchCall_cons {st st' : AppState} {evs : List Event} {q : String}
    (h : TraceInv st st' evs) :
    TraceInv st st' (Event.searchCall q :: evs) :=
  ⟨by rw [successEmails_cons_call]; exact h.count_eq,
   by rw [postEmails_cons_call]; exact h.nodup,
   by rw [postEmails_cons_call]; exact h.fresh,
   h.mono,
   by rw [postEmails_cons_call]; exact h.recorded⟩

theorem add_to_brevo_traceInv (br : String → BrevoResp) (st : AppState) (c : Contact) :
    TraceInv st (add_to_brevo br st c).1 (add_to_brevo br st c).2 := by
  rcases add_to_brevo_cases br st c with ⟨heq, -⟩ | ⟨e, t, hce, hfresh, hpost, hset, hcount⟩
  · rw [heq]
    exact traceInv_of_frame rfl rfl
  · refine ⟨hcount, ?_, ?_, ?_, ?_⟩
    · rw [hpost]
      exact List.nodup_singleton e
    · rw [hpost]
      intro x hx
      rw [List.mem_singleton] at hx
      exact hx ▸ hfresh
    · rw [hset]
      exact fun x hx => List.mem_cons_of_mem _ hx
    · rw [hpost, hset]
      intro x hx
      rw [List.mem_singleton] at hx
      exact hx ▸ List.mem_cons_self _ _

theorem process_sites_traceInv (env : Env) (st : AppState) (sites : List String) :
    TraceInv st (process_sites env st sites).1 (process_sites env st sites).2 := by
  induction sites generalizing st with
  | nil => exact traceInv_of_frame rfl rfl
  | cons site rest ih =>
    simp only [process_sites]
    have hscr : TraceInv st (scrape_page (env.fetch site) st site).1 [] :=
      traceInv_of_frame (scrape_page_uploaded_emails _ _ _) (scrape_page_uploaded_count _ _ _)
    cases hinfo : (scrape_page (env.fetch site) st site).2 with
    | none => exact TraceInv.comp hscr (ih _)
    | some info =>
      dsimp only
      by_cases he : info.email.isEmpty
      · rw [if_pos he]
        exact TraceInv.comp hscr (ih _)
      · rw [if_neg he]
        exact TraceInv.comp
          (TraceInv.comp hscr (add_to_brevo_traceInv env.brevo _ info)) (ih _)

theorem run_queries_traceInv (env : Env) (st : AppState) (qs : List String) :
    TraceInv st (run_queries env st qs).1 (run_queries env st qs).2 := by
  induction qs generalizing st with
  | nil => exact traceInv_of_frame rfl rfl
  | cons q rest ih =>
    simp only [run_queries]
    refine TraceInv.searchCall_cons ?_
    have hq : TraceInv st (query_google_places (env.search q) st q).1 [] :=
      traceInv_of_frame (query_google_places_uploaded_emails _ _ _)
        (query_google_places_uploaded_count _ _ _)
    exact TraceInv.comp (TraceInv.comp hq (process_sites_traceInv env _ _)) (ih _)

/-- C3: after a `run_scraper` run completes, the uploaded-lead counter equals
the number of distinct emails for which the upload collaborator returned
HTTP 200 or 201 during that run — the counter is reset to zero at run start
and incremented only on a confirmed 200/201 response (and in particular it is
independent of how many candidate pages were scanned). -/
theorem run_counter_eq_confirmed_uploads (env : Env) (st : AppState) :
    (run_scraper env st).1.uploaded_count
      = ((successEmails (run_scraper env st).2).dedup).length := by
  simp only [run_scraper]
  have hinv := run_queries_traceInv env
    (log { st with uploaded_count := 0 } "🚀 Scraper started.") SEARCH_QUERIES
  have hnodup : (successEmails (run_queries env
      (log { st with uploaded_count := 0 } "🚀 Scraper started.") SEARCH_QUERIES).2).Nodup :=
    hinv.nodup.sublist (successEmails_sublist _)
  rw [List.dedup_eq_self.mpr hnodup]
  have := hinv.count_eq
  simp only [log_uploaded_count, set_status_uploaded_count] at this ⊢
  rw [this]
  exact Nat.zero_add _

/-! ## C4: shape of every email-pattern match -/

/-- C4: every match produced by the email pattern on any input text has the
shape local-part@domain: a non-empty local part drawn from ASCII letters,
digits and `. _ % + -`, an `@`, a non-empty domain drawn from ASCII letters,
digits, `.` and `-` (dot-separated labels), then a final dot-separated label
of at least two ASCII letters.  In particular every match contains an `@`,
so no string lacking an `@` or lacking such a final label is ever matched. -/
theorem email_matches_shape (text m : List Char) (h : m ∈ findall EMAIL_PATTERN text) :
    '@' ∈ m ∧
    ∃ l d t, m = l ++ '@' :: (d ++ '.' :: t) ∧
      l ≠ [] ∧ (∀ c ∈ l, localChar c = true) ∧
      d ≠ [] ∧ (∀ c ∈ d, domainChar c = true) ∧
      2 ≤ t.length ∧ (∀ c ∈ t, c.isAlpha = true) := by
  obtain ⟨hm, -⟩ := findall_sound h
  simp only [EMAIL_PATTERN] at hm
  cases hm with
  | seq hl hrest1 =>
    cases hrest1 with
    | seq hat hrest2 =>
      cases hrest2 with
      | seq hd hrest3 =>
        cases hrest3 with
        | seq hdot ht =>
          cases hat with
          | one hca =>
            rename_i ca
            cases hdot with
            | one hcd =>
              rename_i cd
              have hca' : ca = '@' := of_decide_eq_true hca
              have hcd' : cd = '.' := of_decide_eq_true hcd
              subst hca'
              subst hcd'
              cases hl with
              | plus hlne hlsat =>
                cases hd with
                | plus hdne hdsat =>
                  cases ht with
                  | repGe htlen htsat =>
                    rename_i l d t
                    refine ⟨by simp, l, d, t, by simp, hlne, hlsat, hdne, hdsat, htlen, htsat⟩

theorem email_matches_shape_witness :
    '@' ∈ "jane@example.com".toList ∧
    ∃ l d t, "jane@example.com".toList = l ++ '@' :: (d ++ '.' :: t) ∧
      l ≠ [] ∧ (∀ c ∈ l, localChar c = true) ∧
      d ≠ [] ∧ (∀ c ∈ d, domainChar c = true) ∧
      2 ≤ t.length ∧ (∀ c ∈ t, c.isAlpha = true) :=
  email_matches_shape "Contact: jane@example.com".toList "jane@example.com".toList
    (by decide)

/-! ## C5: shape of every phone-pattern match -/

theorem sepChar_not_digit {c : Char} (h : sepChar c = true) : c.isDigit = false := by
  simp only [sepChar, spaceChar, Bool.or_eq_true, decide_eq_true_eq] at h
  rcases h with (h | h) | ((((h | h) | h) | h) | h) | h <;> subst h <;> rfl

/-- C5: every match produced by the phone pattern on any input text is a
10-digit number in 3-3-4 grouping, with an optional `(` before and optional
`)` after the area code and an optional single separator (hyphen, dot or
whitespace) between the groups; the match contains exactly 10 digit
characters, and the input text therefore contains at least 10 digits — no
string with fewer than 10 digits ever yields a match. -/
theorem phone_matches_shape (text m : List Char) (h : m ∈ findall PHONE_PATTERN text) :
    m.countP (fun c => c.isDigit) = 10 ∧
    10 ≤ text.countP (fun c => c.isDigit) ∧
    ∃ o1 a o2 s1 b s2 d,
      m = o1 ++ (a ++ (o2 ++ (s1 ++ (b ++ (s2 ++ d))))) ∧
      (o1 = [] ∨ o1 = ['(']) ∧
      a.length = 3 ∧ (∀ c ∈ a, c.isDigit = true) ∧
      (o2 = [] ∨ o2 = [')']) ∧
      (s1 = [] ∨ ∃ c, s1 = [c] ∧ sepChar c = true) ∧
      b.length = 3 ∧ (∀ c ∈ b, c.isDigit = true) ∧
      (s2 = [] ∨ ∃ c, s2 = [c] ∧ sepChar c = true) ∧
      d.length = 4 ∧ (∀ c ∈ d, c.isDigit = true) := by
  obtain ⟨hm, pre, post, hsplit⟩ := findall_sound h
  simp only [PHONE_PATTERN] at hm
  have hshape : ∃ o1 a o2 s1 b s2 d,
      m = o1 ++ (a ++ (o2 ++ (s1 ++ (b ++ (s2 ++ d))))) ∧
      (o1 = [] ∨ o1 = ['(']) ∧
      a.length = 3 ∧ (∀ c ∈ a, c.isDigit = true) ∧
      (o2 = [] ∨ o2 = [')']) ∧
      (s1 = [] ∨ ∃ c, s1 = [c] ∧ sepChar c = true) ∧
      b.length = 3 ∧ (∀ c ∈ b, c.isDigit = true) ∧
      (s2 = [] ∨ ∃ c, s2 = [c] ∧ sepChar c = true) ∧
      d.length = 4 ∧ (∀ c ∈ d, c.isDigit = true) := by
    cases hm with
    | seq ho1 hr1 =>
      cases hr1 with
      | seq ha hr2 =>
        cases hr2 with
        | seq ho2 hr3 =>
          cases hr3 with
          | seq hs1 hr4 =>
            cases hr4 with
            | seq hb hr5 =>
              cases hr5 with
              | seq hs2 hd =>
                have go1 : ∀ {u : List Char}, Matches (.opt (fun c => c = '(')) u →
                    u = [] ∨ u = ['('] := by
                  intro u hu
                  cases hu with
                  | optNone => exact .inl rfl
                  | optSome hc => exact .inr (by rw [of_decide_eq_true hc])
                have go2 : ∀ {u : List Char}, Matches (.opt (fun c => c = ')')) u →
                    u = [] ∨ u = [')'] := by
                  intro u hu
                  cases hu with
                  | optNone => exact .inl rfl
                  | optSome hc => exact .inr (by rw [of_decide_eq_true hc])
                have gsep : ∀ {u : List Char}, Matches (.opt sepChar) u →
                    u = [] ∨ ∃ c, u = [c] ∧ sepChar c = true := by
                  intro u hu
                  cases hu with
                  | optNone => exact .inl rfl
                  | optSome hc => exact .inr ⟨_, rfl, hc⟩
                cases ha with
                | rep halen hasat =>
                  cases hb with
                  | rep hblen hbsat =>
                    cases hd with
                    | rep hdlen hdsat =>
                      exact ⟨_, _, _, _, _, _, _, rfl, go1 ho1, halen, hasat,
                        go2 ho2, gsep hs1, hblen, hbsat, gsep hs2, hdlen, hdsat⟩
  obtain ⟨o1, a, o2, s1, b, s2, d, hm', ho1, halen, hasat, ho2, hs1, hblen, hbsat,
    hs2, hdlen, hdsat⟩ := hshape
  have countP_sat_eq : ∀ (u : List Char), (∀ c ∈ u, c.isDigit = true) →
      u.countP (fun c => c.isDigit) = u.length := by
    intro u hu
    rw [List.countP_eq_length]
    intro c hc
    exact hu c hc
  have countP_opt_zero : ∀ (u : List Char) (x : Char), (u = [] ∨ u = [x]) →
      x.isDigit = false → u.countP (fun c => c.isDigit) = 0 := by
    rintro u x (rfl | rfl) hx
    · rfl
    · simp [List.countP_cons, hx]
  have countP_sep_zero : ∀ (u : List Char), (u = [] ∨ ∃ c, u = [c] ∧ sepChar c = true) →
      u.countP (fun c => c.isDigit) = 0 := by
    rintro u (rfl | ⟨c, rfl, hc⟩)
    · rfl
    · simp [List.countP_cons, sepChar_not_digit hc]
  have hm10 : m.countP (fun c => c.isDigit) = 10 := by
    rw [hm']
    simp only [List.countP_append]
    rw [countP_opt_zero o1 '(' ho1 rfl, countP_opt_zero o2 ')' ho2 rfl,
      countP_sep_zero s1 hs1, countP_sep_zero s2 hs2,
      countP_sat_eq a hasat, countP_sat_eq b hbsat, countP_sat_eq d hdsat,
      halen, hblen, hdlen]
  refine ⟨hm10, ?_, o1, a, o2, s1, b, s2, d, hm', ho1, halen, hasat, ho2, hs1,
    hblen, hbsat, hs2, hdlen, hdsat⟩
  rw [hsplit]
  simp only [List.countP_append]
  omega

theorem phone_matches_shape_witness :
    "(804) 555-1212".toList.countP (fun c => c.isDigit) = 10 ∧
    10 ≤ "Contact: jane@example.com (804) 555-1212".toList.countP (fun c => c.isDigit) ∧
    ∃ o1 a o2 s1 b s2 d,
      "(804) 555-1212".toList = o1 ++ (a ++ (o2 ++ (s1 ++ (b ++ (s2 ++ d))))) ∧
      (o1 = [] ∨ o1 = ['(']) ∧
      a.length = 3 ∧ (∀ c ∈ a, c.isDigit = true) ∧
      (o2 = [] ∨ o2 = [')']) ∧
      (s1 = [] ∨ ∃ c, s1 = [c] ∧ sepChar c = true) ∧
      b.length = 3 ∧ (∀ c ∈ b, c.isDigit = true) ∧
      (s2 = [] ∨ ∃ c, s2 = [c] ∧ sepChar c = true) ∧
      d.length = 4 ∧ (∀ c ∈ d, c.isDigit = true) :=
  phone_matches_shape "Contact: jane@example.com (804) 555-1212".toList
    "(804) 555-1212".toList (by decide)

end RRF
